import Mathlib

/-!
Verification of the name-synthesis core of `mkname`.

The Python sources are shallowly embedded over `List Char`:

* `mkname/mod.py` — `compound_names` (with its inner `get_change_index`
  loop), `double_letter`, `garble`, `add_letters`;
* `mkname/mkname.py` — `select_name`, `build_compound_name`;
* `mkname/utility.py` — `split_into_syllables` (modelled from the spec,
  see its doc comment).

Randomness: the Python code calls `roll('1dN')`, which draws the next
uniformly distributed integer in `[1, N]` from a global generator.  Each
stochastic function here instead takes an explicit list of roll results
`rolls : List Nat` and returns the unconsumed remainder of that list.
`none` models a raised Python exception (an exhausted stream, an index
error, or the explicit `ValueError` where noted).
-/

namespace Mkname

/-- Default consonant set, from the packaged `defaults.cfg`
(`consonants = "bcdfghjklmnpqrstvwxz"`, reproduced in
`src/mkname/init.py`'s configuration documentation). -/
def CONSONANTS : List Char := "bcdfghjklmnpqrstvwxz".toList

/-- Default vowel set, from the packaged `defaults.cfg`
(`vowels = "aeiouy"`). -/
def VOWELS : List Char := "aeiouy".toList

/-- Default flavor letters, from the packaged `defaults.cfg`
(`scifi_letters = "kqxz"`). -/
def SCIFI_LETTERS : List Char := "kqxz".toList

/-- Python `str.casefold` (for the ASCII names handled here it agrees
with lowercasing each character). -/
def casefold (s : List Char) : List Char := s.map Char.toLower

/-- Python `str.capitalize`: first character uppercased, the rest
lowercased. -/
def capitalize : List Char → List Char
  | [] => []
  | c :: cs => Char.toUpper c :: cs.map Char.toLower

/-- One step of Python `str.title`: the Boolean records whether the
previous character was alphabetic (i.e. whether we are inside a word). -/
def titleAux : Bool → List Char → List Char
  | _, [] => []
  | prevAlpha, c :: cs =>
    if c.isAlpha then
      (if prevAlpha then Char.toLower c else Char.toUpper c) :: titleAux true cs
    else
      c :: titleAux false cs

/-- Python `str.title`: uppercase the first character of every
alphabetic run, lowercase the other alphabetic characters. -/
def title (s : List Char) : List Char := titleAux false s

/-- Python `str.rstrip()`: remove trailing whitespace. -/
def rstrip (s : List Char) : List Char :=
  (s.reverse.dropWhile (fun c => c.isWhitespace)).reverse

/-- The `while` loop of `get_change_index` in `mkname/mod.py`:
`while index < len(s) and s[index] in letters: index += 1`.
Walking the suffix `s[index:]` with the running counter is the same
iteration; the loop stops at the first position not in `letters` or at
the end of the string. -/
def gciWalk (letters : List Char) (index : Nat) : List Char → Nat
  | [] => index
  | c :: cs => if c ∈ letters then gciWalk letters (index + 1) cs else index

/-- `get_change_index(s, letters)` from `mkname/mod.py` (the helper
nested inside `compound_names`): `index` starts at `1` and the loop
above scans `s[1:]`. -/
def get_change_index (s letters : List Char) : Nat :=
  gciWalk letters 1 (s.drop 1)

/-- `compound_names(mod_name, root_name, consonants, vowels)` from
`mkname/mod.py`.  Both names are casefolded; the four branches test only
membership of the leading characters in `vowels`; the final `else`
corresponds to the `raise ValueError` in the source, and indexing an
empty name raises `IndexError`.  Errors are `Except.error`. -/
def compound_names (mod0 root0 consonants vowels : List Char) :
    Except String (List Char) :=
  let mod_name := casefold mod0
  let root_name := casefold root0
  match mod_name, root_name with
  | m0 :: mt, r0 :: rt =>
    if r0 ∉ vowels ∧ m0 ∉ vowels then
      .ok (title ((m0 :: mt).take (get_change_index (m0 :: mt) consonants) ++
        (r0 :: rt).drop (get_change_index (r0 :: rt) consonants)))
    else if r0 ∈ vowels ∧ m0 ∉ vowels then
      .ok (title ((m0 :: mt).take (get_change_index (m0 :: mt) consonants) ++
        (r0 :: rt)))
    else if r0 ∈ vowels ∧ m0 ∈ vowels then
      .ok (title ((m0 :: mt).take (get_change_index (m0 :: mt) vowels) ++
        (r0 :: rt).drop (get_change_index (r0 :: rt) vowels)))
    else if r0 ∉ vowels ∧ m0 ∈ vowels then
      .ok (title ((m0 :: mt).take (get_change_index (m0 :: mt) vowels) ++
        (r0 :: rt)))
    else
      .error "ValueError: Names must start with either vowels or consonants."
  | _, _ => .error "IndexError"

/-- `select_name(names)` from `mkname/mkname.py`:
`index = roll(f'1d{len(names)}') - 1; return names[index]`. -/
def select_name (names : List (List Char)) (rolls : List Nat) :
    Option (List Char × List Nat) :=
  match rolls with
  | [] => none
  | r :: rest =>
    match names.get? (r - 1) with
    | some n => some (n, rest)
    | none => none

/-- `build_compound_name(names, consonants, vowels)` from
`mkname/mkname.py`: draws `root_name` then `mod_name` via `select_name`
and returns `compound_names(root_name, mod_name, consonants, vowels)` —
note that the first draw is passed in `compound_names`' `mod_name`
positional slot, exactly as in the source. -/
def build_compound_name (names : List (List Char))
    (consonants vowels : List Char) (rolls : List Nat) :
    Option (Except String (List Char) × List Nat) :=
  match select_name names rolls with
  | none => none
  | some (root_name, rolls1) =>
    match select_name names rolls1 with
    | none => none
    | some (mod_name, rolls2) =>
      some (compound_names root_name mod_name consonants vowels, rolls2)

/-- The index positions of `name` whose character is in `letters`:
`[i for i, c in enumerate(name) if c in letters]` from `double_letter`
in `mkname/mod.py`. -/
def dl_possibilities (name letters : List Char) : List Nat :=
  (List.range name.length).filter
    (fun i =>
      match name.get? i with
      | some c => decide (c ∈ letters)
      | none => false)

/-- `double_letter(name, letters)` from `mkname/mod.py`.  The early
return fires when `letters` is non-empty and shares no character with
`name`; otherwise one roll picks the position (directly when `letters`
is empty, through `dl_possibilities` when not) and the character there
is doubled in place: `name[0:index] + name[index] + name[index:]`. -/
def double_letter (name letters : List Char) (rolls : List Nat) :
    Option (List Char × List Nat) :=
  if letters ≠ [] ∧ ¬ name.any (fun c => decide (c ∈ letters)) then
    some (name, rolls)
  else if letters = [] then
    match rolls with
    | [] => none
    | r :: rest =>
      match name.get? (r - 1) with
      | some ch =>
        some (name.take (r - 1) ++ ch :: name.drop (r - 1), rest)
      | none => none
  else
    match rolls with
    | [] => none
    | r :: rest =>
      match (dl_possibilities name letters).get? (r - 1) with
      | none => none
      | some index =>
        match name.get? index with
        | some ch =>
          some (name.take index ++ ch :: name.drop index, rest)
        | none => none

/-- UTF-8 encoding of one character, as a list of byte values
(`bytes(ch, encoding='utf_8')` for a single-character string). -/
def utf8Bytes (c : Char) : List Nat :=
  let n := c.toNat
  if n < 0x80 then [n]
  else if n < 0x800 then
    [0xC0 + n / 64, 0x80 + n % 64]
  else if n < 0x10000 then
    [0xE0 + n / 4096, 0x80 + (n / 64) % 64, 0x80 + n % 64]
  else
    [0xF0 + n / 262144, 0x80 + (n / 4096) % 64, 0x80 + (n / 64) % 64,
      0x80 + n % 64]

/-- The Base64 alphabet. -/
def b64chars : List Char :=
  "ABCDEFGHIJKLMNOPQRSTUVWXYZabcdefghijklmnopqrstuvwxyz0123456789+/".toList

/-- Character for a 6-bit value in the Base64 alphabet. -/
def b64char (n : Nat) : Char := b64chars.getD n 'A'

/-- Standard Base64 of a byte list (RFC 4648, with `=` padding), as
computed by Python's `base64.b64encode` on each group of three bytes. -/
def b64encode : List Nat → List Char
  | [] => []
  | [b0] =>
    [b64char (b0 / 4), b64char (b0 % 4 * 16), '=', '=']
  | [b0, b1] =>
    [b64char (b0 / 4), b64char (b0 % 4 * 16 + b1 / 16),
      b64char (b1 % 16 * 4), '=']
  | b0 :: b1 :: b2 :: rest =>
    b64char (b0 / 4) :: b64char (b0 % 4 * 16 + b1 / 16) ::
      b64char (b1 % 16 * 4 + b2 / 64) :: b64char (b2 % 64) ::
      b64encode rest

/-- Iteration of `base64.encodebytes`: encode 57-byte chunks, each
followed by a newline.  The fuel argument (instantiated with the input
length, an upper bound on the chunk count) keeps the recursion
structural. -/
def encodebytesGo : Nat → List Nat → List Char
  | 0, _ => []
  | _, [] => []
  | fuel + 1, b :: bs =>
    b64encode ((b :: bs).take 57) ++ '\n' ::
      encodebytesGo fuel ((b :: bs).drop 57)

/-- Python `base64.encodebytes`: Base64 with a newline after every
57-byte input chunk (so a trailing newline on any non-empty input). -/
def encodebytes (bs : List Nat) : List Char := encodebytesGo bs.length bs

/-- `garble(name)` from `mkname/mod.py`: one roll picks the 1-based
position; the character there is replaced by the `encodebytes` encoding
of its UTF-8 bytes with `=` mapped to a space and trailing whitespace
stripped; the result is capitalized. -/
def garble (name : List Char) (rolls : List Nat) :
    Option (List Char × List Nat) :=
  match rolls with
  | [] => none
  | r :: rest =>
    let index := r - 1
    match name.get? index with
    | none => none
    | some ch =>
      let garbled0 := encodebytes (utf8Bytes ch)
      let garbled1 := garbled0.map (fun c => if c = '=' then ' ' else c)
      let garbled := rstrip garbled1
      some (capitalize (name.take index ++ garbled ++ name.drop (index + 1)),
        rest)

/-- Draw `n` values from the roll stream (the list comprehension
`[roll(len_roll) - 1 for _ in range(count)]` consumes `count` rolls in
order). -/
def popN : Nat → List Nat → Option (List Nat × List Nat)
  | 0, rolls => some ([], rolls)
  | n + 1, rolls =>
    match rolls with
    | [] => none
    | r :: rest =>
      match popN n rest with
      | none => none
      | some (vs, rest') => some (r :: vs, rest')

/-- One in-place replacement `name[:index] + letter + name[index + 1:]`. -/
def replaceAt (letter : Char) (name : List Char) (index : Nat) : List Char :=
  name.take index ++ letter :: name.drop (index + 1)

/-- `add_letters(name, letters, vowels)` from `mkname/mod.py`.  Rolls,
in source order: the letter index (`1d len(letters)`), the placement
`choice` (`1d12`), the wildcard `wild` (`1d20`), then — only in the
11–12 branches — either one position roll or a count roll followed by
`count` position rolls.  The name is casefolded before the branches and
capitalized at the end. -/
def add_letters (name0 letters vowels : List Char) (rolls : List Nat) :
    Option (List Char × List Nat) :=
  match rolls with
  | [] => none
  | r1 :: rolls1 =>
    match letters.get? (r1 - 1) with
    | none => none
    | some letter =>
      match rolls1 with
      | [] => none
      | choice :: rolls2 =>
        match rolls2 with
        | [] => none
        | wild :: rolls3 =>
          let name := casefold name0
          if choice < 6 then
            match name with
            | [] => none
            | n0 :: ntail =>
              let name1 :=
                if n0 ∈ vowels then letter :: n0 :: ntail
                else letter :: ntail
              some (capitalize name1, rolls3)
          else if choice < 11 then
            match name.getLast? with
            | none => none
            | some nl =>
              let name1 :=
                if nl ∈ vowels then name ++ [letter]
                else name.dropLast ++ [letter]
              some (capitalize name1, rolls3)
          else if wild < 20 then
            match rolls3 with
            | [] => none
            | ri :: rolls4 =>
              some (capitalize (replaceAt letter name (ri - 1)), rolls4)
          else
            match rolls3 with
            | [] => none
            | rc :: rolls4 =>
              match popN rc rolls4 with
              | none => none
              | some (rs, rolls5) =>
                let name1 := rs.foldl (fun nm r => replaceAt letter nm (r - 1))
                  name
                some (capitalize name1, rolls5)

/-- One step of the syllable scanner.  `state` follows the spec's
"consume consonants, then vowels, then consonants again until the next
vowel-start" description: `0` while consuming the leading consonants of
the current syllable, `1` inside its vowel run, `2` in its trailing
consonants; a vowel met in state `2` closes the syllable and starts the
next one.  `cur` holds the current syllable reversed. -/
def syllAux (vowels : List Char) : Nat → List Char → List Char →
    List (List Char)
  | _, cur, [] => [cur.reverse]
  | state, cur, c :: cs =>
    if c ∈ vowels then
      if state = 2 then cur.reverse :: syllAux vowels 1 [c] cs
      else syllAux vowels 1 (c :: cur) cs
    else
      if state = 0 then syllAux vowels 0 (c :: cur) cs
      else syllAux vowels 2 (c :: cur) cs

/-- Modelled from the spec: `split_into_syllables(name, consonants,
vowels)` lives in `mkname/utility.py`, which is not among the sources
(only its tests and callers are).  Per the spec, the scanner walks the
name and collects syllables of the shape consonant-run, vowel-run,
trailing consonant-run, starting a new syllable at each vowel that
follows the trailing consonants; a name with no classified vowels is a
single syllable.  Classification is against membership in `vowels`, the
non-vowel case consuming everything else. -/
def split_into_syllables (name vowels : List Char) : List (List Char) :=
  match name with
  | [] => []
  | c :: cs =>
    if c ∈ vowels then syllAux vowels 1 [c] cs
    else syllAux vowels 0 [c] cs

/-! ### Helper lemmas -/

theorem gciWalk_eq (letters : List Char) (t : List Char) :
    ∀ i, gciWalk letters i t =
      i + (t.takeWhile (fun x => decide (x ∈ letters))).length := by
  induction t with
  | nil => intro i; simp [gciWalk]
  | cons c cs ih =>
    intro i
    by_cases hc : c ∈ letters
    · simp [gciWalk, List.takeWhile_cons, hc, ih]
      omega
    · simp [gciWalk, List.takeWhile_cons, hc]

theorem takeWhile_len_le (p : Char → Bool) (t : List Char) :
    (t.takeWhile p).length ≤ t.length := by
  induction t with
  | nil => simp
  | cons c cs ih =>
    by_cases hc : p c
    · simpa [List.takeWhile_cons, hc] using Nat.succ_le_succ ih
    · simp [List.takeWhile_cons, hc]

theorem titleAux_length (s : List Char) : ∀ b, (titleAux b s).length = s.length := by
  induction s with
  | nil => intro b; simp [titleAux]
  | cons c cs ih =>
    intro b
    by_cases hc : c.isAlpha
    · simp [titleAux, hc, ih]
    · simp [titleAux, hc, ih]

theorem title_length (s : List Char) : (title s).length = s.length :=
  titleAux_length s false

theorem casefold_cons (c : Char) (cs : List Char) :
    casefold (c :: cs) = c.toLower :: casefold cs := rfl

theorem casefold_length (s : List Char) : (casefold s).length = s.length := by
  simp [casefold]

theorem gci_pos (s letters : List Char) : 1 ≤ get_change_index s letters := by
  have h := gciWalk_eq letters (s.drop 1) 1
  unfold get_change_index
  omega

theorem gci_cons_eq (c : Char) (t letters : List Char) :
    get_change_index (c :: t) letters =
      1 + (t.takeWhile (fun x => decide (x ∈ letters))).length := by
  have h := gciWalk_eq letters t 1
  unfold get_change_index
  simpa using h

theorem gci_le_length (c : Char) (t letters : List Char) :
    get_change_index (c :: t) letters ≤ (c :: t).length := by
  have h := gci_cons_eq c t letters
  have h2 := takeWhile_len_le (fun x => decide (x ∈ letters)) t
  simp only [List.length_cons]
  omega

/-! ### Claims -/

/-- C6: `get_change_index(s, letters)` starts its index at 1 and
increments it while `index < len(s)` and `s[index] ∈ letters`, so for a
non-empty string `c :: t` it returns `1` plus the length of the longest
prefix of the tail inside `letters`: the first character is always part
of the run, its own classification never being tested, and the result
lies between `1` and `len(s)` inclusive. -/
theorem get_change_index_spec (c : Char) (t letters : List Char) :
    get_change_index (c :: t) letters =
      1 + (t.takeWhile (fun x => decide (x ∈ letters))).length ∧
    1 ≤ get_change_index (c :: t) letters ∧
    get_change_index (c :: t) letters ≤ (c :: t).length := by
  exact ⟨gci_cons_eq c t letters, gci_pos _ _, gci_le_length c t letters⟩

/-- C4: on the pool `["eggs", "spam", "tomato"]` with the default
consonant and vowel sets, when the two `select_name` rolls pick `"spam"`
(roll 2) and then `"eggs"` (roll 1), `build_compound_name` returns
exactly `"Speggs"`. -/
theorem build_compound_name_speggs :
    build_compound_name ["eggs".toList, "spam".toList, "tomato".toList]
      CONSONANTS VOWELS [2, 1] =
      some (.ok "Speggs".toList, []) := by rfl

/-- C8 counterexample: `garble("Eggs")` with the roll selecting index 0
returns `"Rqggs"`, which does not begin with `"Rg"` followed by
`"ggs"` — the Base64 encoding of `"E"` is `"RQ"` after removing the
padding, not `"Rg"`, and the trailing `capitalize` lowercases its
second character. -/
theorem garble_eggs_cex :
    garble "Eggs".toList [1] = some ("Rqggs".toList, []) ∧
    ("Rg".toList ++ "ggs".toList).isPrefixOf "Rqggs".toList = false :=
  ⟨by rfl, by rfl⟩

/-- C8 amended: `garble("Eggs")` with the roll selecting index 0
returns `"Rqggs"`, the capitalization of the Base64 encoding of `"E"`
(`"RQ"` with padding removed) followed by `"ggs"`. -/
theorem garble_eggs_amended :
    garble "Eggs".toList [1] = some ("Rqggs".toList, []) ∧
    "Rqggs".toList = capitalize ("RQ".toList ++ "ggs".toList) ∧
    rstrip ((encodebytes (utf8Bytes 'E')).map
      (fun c => if c = '=' then ' ' else c)) = "RQ".toList :=
  ⟨by rfl, by rfl, by rfl⟩

/-- C3 counterexample: with the default sets, `'7'` belongs to neither
the consonant nor the vowel set, yet `compound_names("spam", "7am")`
returns the string `"Spam"` instead of raising: the branch conditions
test only vowel membership, so the unclassified leading character is
treated as consonant-led. -/
theorem compound_names_unclassified_cex :
    ('7' ∉ CONSONANTS ∧ '7' ∉ VOWELS) ∧
    compound_names "spam".toList "7am".toList CONSONANTS VOWELS =
      .ok "Spam".toList :=
  ⟨by decide, by rfl⟩

/-- C3 amended: the `ValueError` branch of `compound_names` is
unreachable.  The four branch conditions test only membership of the
two leading characters in the vowel set and are exhaustive over those
two Booleans, so for every pair of non-empty names — classified or
not — `compound_names` returns a string. -/
theorem compound_names_total (mod root consonants vowels : List Char)
    (hm : mod ≠ []) (hr : root ≠ []) :
    ∃ out, compound_names mod root consonants vowels = .ok out := by
  match mod, root with
  | m0 :: mt, r0 :: rt =>
    by_cases hmv : m0.toLower ∈ vowels <;>
      by_cases hrv : r0.toLower ∈ vowels <;>
        simp [compound_names, casefold_cons, hmv, hrv]
  | [], _ => exact absurd rfl hm
  | _ :: _, [] => exact absurd rfl hr

/-- C3 amended, witness. -/
theorem compound_names_total_witness :
    ∃ out, compound_names "spam".toList "7am".toList CONSONANTS VOWELS =
      .ok out :=
  compound_names_total "spam".toList "7am".toList CONSONANTS VOWELS
    (by decide) (by decide)

/-- C7: when `letters` is non-empty and shares no character with
`name`, `double_letter` returns the name unchanged, consumes no roll,
and raises no error. -/
theorem double_letter_noop (name letters : List Char) (rolls : List Nat)
    (hl : letters ≠ []) (hdisj : ∀ c ∈ name, c ∉ letters) :
    double_letter name letters rolls = some (name, rolls) := by
  have hany : ¬ (name.any (fun c => decide (c ∈ letters)) = true) := by
    simp only [List.any_eq_true, decide_eq_true_eq, not_exists]
    intro c
    intro hmem
    rcases hmem with ⟨hc, hmem⟩
    exact absurd hmem (hdisj c hc)
  unfold double_letter
  rw [if_pos ⟨hl, hany⟩]

/-- C7 witness. -/
theorem double_letter_noop_witness :
    double_letter "spam".toList "xyz".toList [7] =
      some ("spam".toList, [7]) :=
  double_letter_noop "spam".toList "xyz".toList [7] (by decide) (by decide)

/-- C1: for non-empty, already-casefolded names, `compound_names`
follows the four-way case split, deciding each branch solely by
membership of the leading characters in the vowel set: non-vowel-led
mod keeps its consonant run (per `get_change_index` with `consonants`)
as prefix, vowel-led mod its vowel run; the root is appended whole when
its own leading class differs, and after its matching leading run when
it is the same; the spliced result is title-cased. -/
theorem compound_names_case_split (m0 r0 : Char)
    (mt rt consonants vowels : List Char)
    (hm : casefold (m0 :: mt) = m0 :: mt)
    (hr : casefold (r0 :: rt) = r0 :: rt) :
    (m0 ∉ vowels → r0 ∉ vowels →
      compound_names (m0 :: mt) (r0 :: rt) consonants vowels =
        .ok (title ((m0 :: mt).take (get_change_index (m0 :: mt) consonants) ++
          (r0 :: rt).drop (get_change_index (r0 :: rt) consonants)))) ∧
    (m0 ∉ vowels → r0 ∈ vowels →
      compound_names (m0 :: mt) (r0 :: rt) consonants vowels =
        .ok (title ((m0 :: mt).take (get_change_index (m0 :: mt) consonants) ++
          (r0 :: rt)))) ∧
    (m0 ∈ vowels → r0 ∈ vowels →
      compound_names (m0 :: mt) (r0 :: rt) consonants vowels =
        .ok (title ((m0 :: mt).take (get_change_index (m0 :: mt) vowels) ++
          (r0 :: rt).drop (get_change_index (r0 :: rt) vowels)))) ∧
    (m0 ∈ vowels → r0 ∉ vowels →
      compound_names (m0 :: mt) (r0 :: rt) consonants vowels =
        .ok (title ((m0 :: mt).take (get_change_index (m0 :: mt) vowels) ++
          (r0 :: rt)))) := by
  refine ⟨?_, ?_, ?_, ?_⟩ <;> intro h1 h2 <;>
    simp [compound_names, hm, hr, h1, h2]

/-- C1 witness: the first-characters-differ branch at
`compound_names("spam", "eggs")`. -/
theorem compound_names_case_split_witness :
    compound_names "spam".toList "eggs".toList CONSONANTS VOWELS =
      .ok (title (("spam".toList).take
        (get_change_index "spam".toList CONSONANTS) ++ "eggs".toList)) :=
  (compound_names_case_split 's' 'e' "pam".toList "ggs".toList
    CONSONANTS VOWELS (by rfl) (by rfl)).2.1 (by decide) (by decide)

theorem syllAux_join (vowels : List Char) (cs : List Char) :
    ∀ state cur, (syllAux vowels state cur cs).flatten = cur.reverse ++ cs := by
  induction cs with
  | nil => intro state cur; simp [syllAux]
  | cons c cs ih =>
    intro state cur
    by_cases hc : c ∈ vowels
    · by_cases hs : state = 2
      · simp [syllAux, hc, hs, ih]
      · simp [syllAux, hc, hs, ih]
    · by_cases hs : state = 0
      · simp [syllAux, hc, hs, ih]
      · simp [syllAux, hc, hs, ih]

theorem syllAux_ne_nil (vowels : List Char) (cs : List Char) :
    ∀ state cur, syllAux vowels state cur cs ≠ [] := by
  induction cs with
  | nil => intro state cur; simp [syllAux]
  | cons c cs ih =>
    intro state cur
    by_cases hc : c ∈ vowels
    · by_cases hs : state = 2
      · simp [syllAux, hc, hs]
      · simp [syllAux, hc, hs, ih]
    · by_cases hs : state = 0
      · simp [syllAux, hc, hs, ih]
      · simp [syllAux, hc, hs, ih]

theorem syllAux_no_vowel (vowels : List Char) (cs : List Char) :
    ∀ cur, (∀ c ∈ cs, c ∉ vowels) →
      syllAux vowels 0 cur cs = [cur.reverse ++ cs] := by
  induction cs with
  | nil => intro cur _; simp [syllAux]
  | cons c cs ih =>
    intro cur h
    have hc : c ∉ vowels := h c (List.mem_cons_self c cs)
    have hrest : ∀ x ∈ cs, x ∉ vowels := fun x hx => h x (List.mem_cons_of_mem c hx)
    simp [syllAux, hc, ih _ hrest]

/-- C2: `split_into_syllables` (modelled from the spec, the source
module being absent) is a lossless, order-preserving partition: for a
non-empty name the concatenation of the returned substrings equals the
name, at least one substring is returned, and a name containing no
character of the vowel set yields exactly one syllable equal to the
whole name. -/
theorem split_into_syllables_partition (name vowels : List Char)
    (h : name ≠ []) :
    (split_into_syllables name vowels).flatten = name ∧
    1 ≤ (split_into_syllables name vowels).length ∧
    ((∀ c ∈ name, c ∉ vowels) →
      split_into_syllables name vowels = [name]) := by
  match name with
  | [] => exact absurd rfl h
  | c :: cs =>
    refine ⟨?_, ?_, ?_⟩
    · by_cases hc : c ∈ vowels <;>
        simp [split_into_syllables, hc, syllAux_join]
    · by_cases hc : c ∈ vowels <;>
        · have := syllAux_ne_nil vowels cs (if c ∈ vowels then 1 else 0) [c]
          simp [split_into_syllables, hc] at this ⊢
          exact List.length_pos.mpr (by simpa [hc] using this)
    · intro hnv
      have hc : c ∉ vowels := hnv c (List.mem_cons_self c cs)
      have hrest : ∀ x ∈ cs, x ∉ vowels :=
        fun x hx => hnv x (List.mem_cons_of_mem c hx)
      simp [split_into_syllables, hc, syllAux_no_vowel vowels cs [c] hrest]

/-- C2 witness: the vowel-free name `"bcd"`. -/
theorem split_into_syllables_partition_witness :
    (split_into_syllables "bcd".toList VOWELS).flatten = "bcd".toList ∧
    1 ≤ (split_into_syllables "bcd".toList VOWELS).length ∧
    ((∀ c ∈ "bcd".toList, c ∉ VOWELS) →
      split_into_syllables "bcd".toList VOWELS = ["bcd".toList]) :=
  split_into_syllables_partition "bcd".toList VOWELS (by decide)

/-- C10: when the placement roll `c` is between 1 and 10 (the prepend
and append branches), the output of `add_letters` does not depend on
the wildcard roll — two streams differing only in the wildcard value
give identical results — although the wildcard die is consumed from the
stream in every call: every successful call returns the stream with the
wildcard element removed. -/
theorem add_letters_wildcard_independent
    (name letters vowels : List Char) (r1 c w1 w2 : Nat) (rest : List Nat)
    (h1 : 1 ≤ c) (h2 : c ≤ 10) :
    add_letters name letters vowels (r1 :: c :: w1 :: rest) =
      add_letters name letters vowels (r1 :: c :: w2 :: rest) ∧
    (∀ out rem,
      add_letters name letters vowels (r1 :: c :: w1 :: rest) =
        some (out, rem) → rem = rest) := by
  have hc11 : c < 11 := by omega
  rcases hget : letters[r1 - 1]? with _ | letter
  · constructor
    · simp [add_letters, hget]
    · intro out rem hout
      simp [add_letters, hget] at hout
  · by_cases hc6 : c < 6
    · constructor
      · simp [add_letters, hget, hc6]
      · intro out rem hout
        simp only [add_letters, hc6, if_true] at hout
        rw [List.get?_eq_getElem?, hget] at hout
        rcases hname : casefold name with _ | ⟨n0, nt⟩ <;>
          rw [hname] at hout <;> simp at hout
        exact hout.2.symm
    · constructor
      · simp [add_letters, hget, hc6, hc11]
      · intro out rem hout
        simp only [add_letters, hc6, hc11, if_true, if_false] at hout
        rw [List.get?_eq_getElem?, hget] at hout
        rcases hlast : (casefold name).getLast? with _ | nl <;>
          rw [hlast] at hout <;> simp at hout
        exact hout.2.symm

/-- C10 witness: placement roll 3 (prepend), wildcard 7 versus 20. -/
theorem add_letters_wildcard_independent_witness :
    (add_letters "spam".toList SCIFI_LETTERS VOWELS [1, 3, 7] =
      add_letters "spam".toList SCIFI_LETTERS VOWELS [1, 3, 20]) ∧
    (∀ out rem,
      add_letters "spam".toList SCIFI_LETTERS VOWELS [1, 3, 7] =
        some (out, rem) → rem = []) :=
  add_letters_wildcard_independent "spam".toList SCIFI_LETTERS VOWELS
    1 3 7 20 [] (by decide) (by decide)

theorem title_splice_bounds (M R : List Char) (k j : Nat)
    (hk : 1 ≤ k) (hM : 1 ≤ M.length) :
    1 ≤ (title (M.take k ++ R.drop j)).length ∧
    (title (M.take k ++ R.drop j)).length ≤ M.length + R.length := by
  rw [title_length, List.length_append, List.length_take, List.length_drop]
  omega

/-- C5 counterexample: on the pool `["e", "a"]` with the default sets
(both leading characters classifiable as vowels), the rolls `[1, 2]`
make `build_compound_name` return `"E"`, of length 1, violating the
claimed lower bound of 2. -/
theorem build_compound_name_length_cex :
    build_compound_name ["e".toList, "a".toList] CONSONANTS VOWELS [1, 2] =
      some (.ok ['E'], []) ∧
    ¬ 2 ≤ (['E'] : List Char).length :=
  ⟨by rfl, by decide⟩

/-- C5 amended: for two non-empty names whose casefolded leading
characters are classifiable, the compound name is non-empty and its
length is at most the sum of the two name lengths; the lower bound is
1, not 2 (a vowel-led root whose leading vowel run is the whole name
contributes nothing). -/
theorem compound_names_length_bounds (m0 r0 : Char)
    (mt rt consonants vowels : List Char)
    (hm : m0.toLower ∈ consonants ∨ m0.toLower ∈ vowels)
    (hr : r0.toLower ∈ consonants ∨ r0.toLower ∈ vowels) :
    ∃ out, compound_names (m0 :: mt) (r0 :: rt) consonants vowels = .ok out ∧
      1 ≤ out.length ∧
      out.length ≤ (m0 :: mt).length + (r0 :: rt).length := by
  have hMlen : (m0.toLower :: casefold mt).length = mt.length + 1 := by
    simp [casefold]
  have hRlen : (r0.toLower :: casefold rt).length = rt.length + 1 := by
    simp [casefold]
  by_cases hmv : m0.toLower ∈ vowels
  · by_cases hrv : r0.toLower ∈ vowels
    · simp [compound_names, casefold_cons, hmv, hrv]
      have hb := title_splice_bounds (m0.toLower :: casefold mt)
        (r0.toLower :: casefold rt)
        (get_change_index (m0.toLower :: casefold mt) vowels)
        (get_change_index (r0.toLower :: casefold rt) vowels)
        (gci_pos _ _) (by simp)
      exact ⟨hb.1, by omega⟩
    · simp [compound_names, casefold_cons, hmv, hrv]
      have hb := title_splice_bounds (m0.toLower :: casefold mt)
        (r0.toLower :: casefold rt)
        (get_change_index (m0.toLower :: casefold mt) vowels) 0
        (gci_pos _ _) (by simp)
      simp only [List.drop_zero] at hb
      exact ⟨hb.1, by omega⟩
  · by_cases hrv : r0.toLower ∈ vowels
    · simp [compound_names, casefold_cons, hmv, hrv]
      have hb := title_splice_bounds (m0.toLower :: casefold mt)
        (r0.toLower :: casefold rt)
        (get_change_index (m0.toLower :: casefold mt) consonants) 0
        (gci_pos _ _) (by simp)
      simp only [List.drop_zero] at hb
      exact ⟨hb.1, by omega⟩
    · simp [compound_names, casefold_cons, hmv, hrv]
      have hb := title_splice_bounds (m0.toLower :: casefold mt)
        (r0.toLower :: casefold rt)
        (get_change_index (m0.toLower :: casefold mt) consonants)
        (get_change_index (r0.toLower :: casefold rt) consonants)
        (gci_pos _ _) (by simp)
      exact ⟨hb.1, by omega⟩

/-- C5 amended, witness. -/
theorem compound_names_length_bounds_witness :
    ∃ out, compound_names "spam".toList "eggs".toList CONSONANTS VOWELS =
      .ok out ∧
      1 ≤ out.length ∧
      out.length ≤ ("spam".toList).length + ("eggs".toList).length :=
  compound_names_length_bounds 's' 'e' "pam".toList "ggs".toList
    CONSONANTS VOWELS (by decide) (by decide)

theorem dup_splice_eq (name : List Char) (i : Nat) (h : i < name.length) :
    name.take i ++ name[i] :: name.drop i = name.take (i + 1) ++ name.drop i := by
  rw [List.take_succ, List.getElem?_eq_getElem h, List.append_assoc]
  rfl

theorem dup_splice_spec (name : List Char) (i : Nat) (h : i < name.length) :
    (name.take (i + 1) ++ name.drop i).length = name.length + 1 ∧
    (name.take (i + 1) ++ name.drop i).take i ++
      (name.take (i + 1) ++ name.drop i).drop (i + 1) = name := by
  constructor
  · rw [List.length_append, List.length_take, List.length_drop]
    omega
  · have hlen : (name.take (i + 1)).length = i + 1 := by
      rw [List.length_take]; omega
    have h1 : List.take i (name.take (i + 1)) = name.take i := by
      rw [List.take_take]; congr 1; omega
    have h2 : List.drop (i + 1) (name.take (i + 1)) = [] := by
      apply List.drop_of_length_le; omega
    rw [List.take_append_eq_append_take, List.drop_append_eq_append_drop, hlen,
      h1, h2]
    have h3 : i - (i + 1) = 0 := by omega
    have h4 : i + 1 - (i + 1) = 0 := by omega
    rw [h3, h4]
    simp

/-- C9: when the name shares a character with `letters` (or `letters`
is unset and the name non-empty) and the roll is within the valid
1-based range, `double_letter` duplicates exactly one character
adjacent to its original position: the output is
`name.take (i + 1) ++ name.drop i` for some position `i` — the original
characters unchanged, so casing is preserved, no casefold or
capitalization being applied — its length is `len(name) + 1`, and
deleting one of the two adjacent duplicates recovers the input
exactly. -/
theorem double_letter_duplicates (name letters : List Char)
    (r : Nat) (rest : List Nat)
    (hshare : (letters = [] ∧ name ≠ []) ∨
      (letters ≠ [] ∧ ∃ c, c ∈ name ∧ c ∈ letters))
    (hr1 : 1 ≤ r)
    (hr2 : r ≤ if letters = [] then name.length
      else (dl_possibilities name letters).length) :
    ∃ i out, i < name.length ∧
      double_letter name letters (r :: rest) = some (out, rest) ∧
      out = name.take (i + 1) ++ name.drop i ∧
      out.length = name.length + 1 ∧
      out.take i ++ out.drop (i + 1) = name := by
  rcases hshare with ⟨hle, hne⟩ | ⟨hlne, c, hcn, hcl⟩
  · subst hle
    rw [if_pos rfl] at hr2
    have hlpos : 1 ≤ name.length := le_trans hr1 hr2
    have hidx : r - 1 < name.length := by omega
    refine ⟨r - 1, name.take (r - 1 + 1) ++ name.drop (r - 1), hidx, ?_,
      rfl, (dup_splice_spec name (r - 1) hidx).1,
      (dup_splice_spec name (r - 1) hidx).2⟩
    have hget : name.get? (r - 1) = some name[r - 1] := by
      rw [List.get?_eq_getElem?]; exact List.getElem?_eq_getElem hidx
    unfold double_letter
    rw [if_neg (by simp), if_pos rfl]
    simp only [hget]
    rw [← dup_splice_eq name (r - 1) hidx]
  · rw [if_neg hlne] at hr2
    have hany : name.any (fun c => decide (c ∈ letters)) = true :=
      List.any_eq_true.mpr ⟨c, hcn, by simpa using hcl⟩
    have hplen : r - 1 < (dl_possibilities name letters).length := by omega
    have hmem : (dl_possibilities name letters)[r - 1] ∈
        dl_possibilities name letters := List.getElem_mem hplen
    have hidx : (dl_possibilities name letters)[r - 1] < name.length := by
      have := (List.mem_filter.mp hmem).1
      exact List.mem_range.mp this
    have hpget : (dl_possibilities name letters).get? (r - 1) =
        some (dl_possibilities name letters)[r - 1] := by
      rw [List.get?_eq_getElem?]; exact List.getElem?_eq_getElem hplen
    have hget : name.get? ((dl_possibilities name letters)[r - 1]) =
        some name[(dl_possibilities name letters)[r - 1]] := by
      rw [List.get?_eq_getElem?]; exact List.getElem?_eq_getElem hidx
    refine ⟨(dl_possibilities name letters)[r - 1],
      name.take ((dl_possibilities name letters)[r - 1] + 1) ++
        name.drop ((dl_possibilities name letters)[r - 1]), hidx, ?_,
      rfl, (dup_splice_spec name _ hidx).1, (dup_splice_spec name _ hidx).2⟩
    unfold double_letter
    rw [if_neg (by simp [hany]), if_neg hlne]
    simp only [hpget, hget]
    rw [← dup_splice_eq name _ hidx]

/-- C9 witness: `double_letter("Bacon", "aeiou")` with roll 1. -/
theorem double_letter_duplicates_witness :
    ∃ i out, i < ("Bacon".toList).length ∧
      double_letter "Bacon".toList "aeiou".toList [1] = some (out, []) ∧
      out = ("Bacon".toList).take (i + 1) ++ ("Bacon".toList).drop i ∧
      out.length = ("Bacon".toList).length + 1 ∧
      out.take i ++ out.drop (i + 1) = "Bacon".toList :=
  double_letter_duplicates "Bacon".toList "aeiou".toList 1 []
    (Or.inr ⟨by decide, 'a', by decide, by decide⟩) (by decide) (by decide)

end Mkname
